import Mathlib

/-!
Shallow embedding of the mkdocs-behave plugin, from
`src/mkdocs_behave/featureformatter.py` and `src/mkdocs_behave/plugin.py`.

Python text is modelled as `List Char` (or `String` where only concrete
concatenation matters), Python lists as Lean lists, Python dicts as ordered
association lists, and in-place mutation as functional update.  The `pathlib`
operations used by the sources (`Path.with_suffix`, `Path.name`, `Path.parent`)
are modelled on already slash-normalised relative path strings, which is what
the plugin feeds them (`Path(s)` separator normalisation is the identity there).
-/

/-- Python `str.startswith`: does `l` begin with `pre`? -/
def startswith : List Char → List Char → Bool
  | _, [] => true
  | [], _ :: _ => false
  | c :: cs, p :: ps => c = p && startswith cs ps

/-- Python `str.endswith`: does `l` end with `suf`? -/
def endswith (l suf : List Char) : Bool :=
  startswith l.reverse suf.reverse

/-- The `PurePath.name` of a normalised path string: the maximal slash-free suffix. -/
def nameOf (p : List Char) : List Char :=
  (p.reverse.takeWhile (fun c => c ≠ '/')).reverse

/-- The complement of `nameOf`: everything up to and including the last slash. -/
def dirOf (p : List Char) : List Char :=
  (p.reverse.dropWhile (fun c => c ≠ '/')).reverse

/-- The `PurePath.stem` rule: CPython computes `i = name.rfind('.')` and regards the
suffix as nonempty only when `0 < i < len(name) - 1`; the stem is the part of
the final component before that suffix. -/
def stemOfName (name : List Char) : List Char :=
  match name.reverse.dropWhile (fun c => c ≠ '.') with
  | [] => name
  | _ :: srev =>
      if srev = [] ∨ name.reverse.takeWhile (fun c => c ≠ '.') = [] then name
      else srev.reverse

/-- Model of `str(PurePath(p).with_suffix(ext))` for a normalised relative path string
`p` with a nonempty final component and a valid dotted `ext`: the old suffix of
the final component (per `stemOfName`) is replaced by `ext`. -/
def with_suffix (p ext : List Char) : List Char :=
  dirOf p ++ stemOfName (nameOf p) ++ ext

/-- The specification-file suffix `'.feature'` (plugin.py hard-codes it). -/
def featExt : List Char := ".feature".data

/-- The document suffix `'.md'` (plugin.py hard-codes it). -/
def mdExt : List Char := ".md".data

/-- One element of a `NavTree = List[Union[str, Dict[str, NavTree]]]` level:
either a file-path leaf or a mapping entry.  A Python dict may carry several
keys, so a `node` holds its first key/value pair plus the remaining ordered
pairs (the sources crash on an empty dict via `next(iter(...))`, so the empty
mapping is not represented). -/
inductive NavElement where
  | leaf (path : List Char) : NavElement
  | node (name : List Char) (sub : List NavElement) (rest : List (List Char × List NavElement)) : NavElement

/-- Python `element in nav_entry` for a string `element`: a string compares
equal only to string entries, so this is membership among the leaves of the
level. -/
def leafMem (t : List NavElement) (p : List Char) : Bool :=
  t.any (fun e => match e with
    | .leaf q => q = p
    | .node _ _ _ => false)

/-- Python `name in entry` for a dict entry: does any key equal `name`? -/
def entryHasKey (k : List Char) : NavElement → Bool
  | .leaf _ => false
  | .node n _ rest => n = k || rest.any (fun pr => pr.1 = k)

/-- Python `entry[name]`: the value stored under key `name` (callers only use
it when `entryHasKey` holds; dict keys are unique, so the first match is the
value). -/
def entryGet (k : List Char) : NavElement → List NavElement
  | .leaf _ => []
  | .node n sub rest =>
      if n = k then sub else ((rest.find? (fun pr => pr.1 = k)).map Prod.snd).getD []

/-- Model of `next((entry[name] for entry in nav_entry if isinstance(entry, dict) and
name in entry), None)`: the value under `name` in the first dict entry of the
level that has that key. -/
def lookupGroup : List NavElement → List Char → Option (List NavElement)
  | [], _ => none
  | e :: es, k => if entryHasKey k e then some (entryGet k e) else lookupGroup es k

/-- Replace the value of the first pair with key `k` (models assigning through
the reference obtained from `entry[name]`). -/
def setRest (k : List Char) (v : List NavElement) :
    List (List Char × List NavElement) → List (List Char × List NavElement)
  | [] => []
  | pr :: os => if pr.1 = k then (pr.1, v) :: os else pr :: setRest k v os

/-- Functional image of mutating `entry[name]` in place: the value under key
`k` becomes `v`, everything else is untouched. -/
def entrySet (k : List Char) (v : List NavElement) : NavElement → NavElement
  | .leaf p => .leaf p
  | .node n sub rest => if n = k then .node n v rest else .node n sub (setRest k v rest)

/-- Functional image of mutating, inside the level, the sub-tree found by
`lookupGroup`: the first dict entry having key `k` gets value `v` there. -/
def setGroup : List NavElement → List Char → List NavElement → List NavElement
  | [], _, _ => []
  | e :: es, k, v => if entryHasKey k e then entrySet k v e :: es else e :: setGroup es k v

/-- Python `str.capitalize()` (ASCII model): first character upper-cased, the
remainder lower-cased. -/
def pyCapitalize : List Char → List Char
  | [] => []
  | c :: rest => c.toUpper :: rest.map Char.toLower

/-- The normalisation `name.replace('_', ' ').capitalize()` from `_merge_features_into_nav`. -/
def normName (l : List Char) : List Char :=
  pyCapitalize (l.map (fun c => if c = '_' then ' ' else c))

/-- Model of `BehavePlugin._merge_features_into_nav.merge`, functionally: iterate the
source elements in order; append a leaf unless an identical leaf is present;
for a mapping element take its first key/value pair, normalise the name, merge
into the first existing dict entry with that name or append a fresh
single-key entry. -/
def merge : List NavElement → List NavElement → List NavElement
  | dest, [] => dest
  | dest, .leaf p :: rest =>
      merge (if leafMem dest p then dest else dest ++ [.leaf p]) rest
  | dest, .node n sub _ :: rest =>
      match lookupGroup dest (normName n) with
      | some old => merge (setGroup dest (normName n) (merge old sub)) rest
      | none => merge (dest ++ [.node (normName n) (merge [] sub) []]) rest

/-- Model of `BehavePlugin._get_feature_paths_in_nav.find`: collect the leaves ending in
`.feature`, descending into `next(iter(element.values()))` — only the FIRST
value of each dict entry.  (The source wraps each hit in `Path(...)`; on the
normalised relative strings the nav carries this is the identity.) -/
def get_feature_paths_in_nav : List NavElement → List (List Char)
  | [] => []
  | .leaf p :: rest =>
      (if endswith p featExt then [p] else []) ++ get_feature_paths_in_nav rest
  | .node _ sub _ :: rest => get_feature_paths_in_nav sub ++ get_feature_paths_in_nav rest

/-- Model of `str(Path(element).with_suffix('.md'))` applied to a leaf when it ends in
`.feature`, as in `_rename_features_in_nav.process`. -/
def renameLeaf (p : List Char) : List Char :=
  if endswith p featExt then with_suffix p mdExt else p

/-- Model of `BehavePlugin._rename_features_in_nav.process`: rewrite `.feature` leaves
to `.md` in place, descending only into the first value of each dict entry. -/
def rename_features_in_nav : List NavElement → List NavElement
  | [] => []
  | .leaf p :: rest => .leaf (renameLeaf p) :: rename_features_in_nav rest
  | .node n sub others :: rest =>
      .node n (rename_features_in_nav sub) others :: rename_features_in_nav rest

/-- Model of `Path(p).parent.parts[1:]` for the relative paths produced by the feature
scan: the intermediate directory components between the features root and the
file name. -/
def parentParts (p : List Char) : List (List Char) :=
  ((p.splitOn '/').dropLast).drop 1

/-- The group-descent-and-append step of `BehavePlugin._build_feature_tree`:
walk the parent parts, descending into the dict entry with the raw part name
(creating an empty one when absent), then append the leaf unconditionally. -/
def insertPath (t : List NavElement) (parts : List (List Char)) (p : List Char) :
    List NavElement :=
  match parts with
  | [] => t ++ [.leaf p]
  | g :: gs =>
      match lookupGroup t g with
      | some sub => setGroup t g (insertPath sub gs p)
      | none => t ++ [.node g (insertPath [] gs p) []]

/-- Model of `BehavePlugin._build_feature_tree`: fold the sorted feature paths into a
tree mirroring the nav. -/
def build_feature_tree (paths : List (List Char)) : List NavElement :=
  paths.foldl (fun t p => insertPath t (parentParts p) p) []

/-- Leaf count of one level (leaves only, no descent): used to state how many
identical entries a level carries. -/
def countLeaf : List NavElement → List Char → Nat
  | [], _ => 0
  | .leaf q :: rest, p => (if q = p then 1 else 0) + countLeaf rest p
  | .node _ _ _ :: rest, p => countLeaf rest p

/-- All group names (dict keys) of one tree level, in order. -/
def levelKeys : List NavElement → List (List Char)
  | [] => []
  | .leaf _ :: rest => levelKeys rest
  | .node n _ others :: rest => (n :: others.map Prod.fst) ++ levelKeys rest

/-- Every mapping entry of the tree has exactly one key, as the spec's
Navigation Tree data model prescribes. -/
def singleKey : List NavElement → Bool
  | [] => true
  | .leaf _ :: rest => singleKey rest
  | .node _ sub others :: rest => others.isEmpty && singleKey sub && singleKey rest

mutual

/-- All leaves of the tree, at any depth, through every dict key. -/
def allLeaves : List NavElement → List (List Char)
  | [] => []
  | .leaf p :: rest => p :: allLeaves rest
  | .node _ sub others :: rest => allLeaves sub ++ entryLeaves others ++ allLeaves rest

/-- All leaves below the trailing key/value pairs of a mapping entry. -/
def entryLeaves : List (List Char × List NavElement) → List (List Char)
  | [] => []
  | (_, t) :: os => allLeaves t ++ entryLeaves os

end

mutual

/-- Every sub-tree hanging off this level satisfies the per-level invariant
"group names are pairwise distinct". -/
def subsInv : List NavElement → Prop
  | [] => True
  | .leaf _ :: rest => subsInv rest
  | .node _ sub others :: rest =>
      ((levelKeys sub).Nodup ∧ subsInv sub) ∧ entriesInv others ∧ subsInv rest

/-- The invariant for the values of the trailing key/value pairs. -/
def entriesInv : List (List Char × List NavElement) → Prop
  | [] => True
  | (_, t) :: os => ((levelKeys t).Nodup ∧ subsInv t) ∧ entriesInv os

end

/-- The spec's §3 invariant: within every level of the tree, at most one
mapping entry per distinct group name. -/
def navInv (t : List NavElement) : Prop :=
  (levelKeys t).Nodup ∧ subsInv t

/-- The source tree (or element) is already contained in the destination, in
the sense the merge tests for: each leaf is present at the level, and each
mapping element's normalised first key resolves to a sub-tree that contains
its first value. -/
def absorbedElem : NavElement → List NavElement → Prop
  | .leaf p, d => leafMem d p = true
  | .node n sub _, d =>
      ∃ old, lookupGroup d (normName n) = some old ∧ ∀ e ∈ sub, absorbedElem e old
termination_by e _ => sizeOf e
decreasing_by
  have := List.sizeOf_lt_of_mem ‹e ∈ sub›
  simp at *
  omega

/-- The `_strip_dots` per-line rule: a line that is exactly `'.'` or starts with
`'. '` loses its first two characters (Python slicing `'.'[2:]` yields `''`);
anything else is unchanged. -/
def stripDotLine (line : List Char) : List Char :=
  if line = ['.'] || startswith line ['.', ' '] then line.drop 2 else line

/-- Model of `featureformatter._strip_dots`: the list comprehension over the
description lines. -/
def strip_dots (lines : List (List Char)) : List (List Char) :=
  lines.map stripDotLine

/-- Scan up to the first `'"'`: `some (before, after)` when a quote exists. -/
def splitQuote : List Char → Option (List Char × List Char)
  | [] => none
  | c :: rest =>
      if c = '"' then some ([], rest)
      else (splitQuote rest).map (fun pr => (c :: pr.1, pr.2))

/-- Model of `re.sub(r'"([^"]*)"', r'"`\1`"', name)` from `format_step`: each
double-quoted run of non-quote characters keeps its quotes and has its
contents wrapped in backticks; a trailing unmatched quote is left alone. -/
def renderQuotes (s : List Char) : List Char :=
  match h1 : splitQuote s with
  | none => s
  | some (pre, r1) =>
      match h2 : splitQuote r1 with
      | none => s
      | some (mid, r2) =>
          pre ++ '"' :: '\x60' :: (mid ++ '\x60' :: '"' :: renderQuotes r2)
termination_by s.length
decreasing_by
  have key : ∀ (l a b : List Char), splitQuote l = some (a, b) → b.length < l.length := by
    intro l
    induction l with
    | nil => intro a b hab; cases hab
    | cons c cs ih =>
      intro a b hab
      rw [splitQuote] at hab
      by_cases hc : c = '"'
      · rw [if_pos hc] at hab
        injection hab with hpair
        injection hpair with ha hb
        subst hb
        simp
      · rw [if_neg hc] at hab
        cases hq : splitQuote cs with
        | none =>
          rw [hq] at hab
          cases hab
        | some pr =>
          rw [hq] at hab
          simp only [Option.map] at hab
          injection hab with hpair
          injection hpair with ha hb
          subst hb
          have := ih pr.1 pr.2 (by rw [hq])
          simp only [List.length_cons]
          omega
  have hb1 := key s pre r1 h1
  have hb2 := key r1 mid r2 h2
  omega

/-- An example table of a behave `ScenarioOutline` (`examples.name` is the
empty string when the table carries no name). -/
structure ExamplesTable where
  name : String
  headings : List String
  rows : List (List String)
deriving DecidableEq

/-- A behave step (`text` is the empty string when there is no multi-line
block). -/
structure Step where
  keyword : String
  name : String
  text : String
deriving DecidableEq

/-- A behave scenario; `isOutline` marks the `ScenarioOutline` variant, whose
`examples` tables are rendered. -/
structure Scenario where
  name : String
  tags : List String
  steps : List Step
  isOutline : Bool
  examples : List ExamplesTable
deriving DecidableEq

/-- A behave feature (`background = []` models a feature without background). -/
structure Feature where
  name : String
  tags : List String
  description : List String
  background : List Step
  scenarios : List Scenario
deriving DecidableEq

/-- Python `' '.join('@' + tag for tag in tags)`. -/
def tagLine (tags : List String) : String :=
  String.intercalate " " (tags.map (fun tag => "@" ++ tag))

/-- Python `'|--' * n`-style string repetition. -/
def repeatStr (s : String) : Nat → String
  | 0 => ""
  | n + 1 => s ++ repeatStr s n

/-- Model of `FeatureFormatter.format_step`.  The `_guess_code_language` regex table is
abstracted as the function `guess` (no claim concerns the highlight hint). -/
def format_step (guess : String → String) (step : Step) : String :=
  "**" ++ step.keyword ++ "** " ++ String.mk (renderQuotes step.name.data) ++ "  \n" ++
    (if step.text ≠ "" then
      "\n" ++ "```" ++ guess step.name ++ "\n" ++ step.text ++ "\n" ++ "```" ++ "\n"
    else "")

/-- The example-table part of `FeatureFormatter.format_scenario`, line 85-90:
note the Python conditional expression
`('#### Examples' + f': {examples.name}' if examples.name else '') + '\n'`
groups as `(('#### Examples' + ...) if examples.name else '') + '\n'`, so an
unnamed table gets NO heading text, only the newline. -/
def format_examples (ex : ExamplesTable) : String :=
  (if ex.name ≠ "" then "#### Examples" ++ ": " ++ ex.name else "") ++ "\n" ++
    "|" ++ String.intercalate "|" ex.headings ++ "|" ++ "\n" ++
    repeatStr "|--" ex.headings.length ++ "|" ++ "\n" ++
    String.join (ex.rows.map (fun row =>
      "|" ++ String.intercalate "|" (row.map (fun cell => "`" ++ cell ++ "`")) ++ "|" ++ "\n")) ++
    "\n"

/-- Model of `FeatureFormatter.format_scenario`. -/
def format_scenario (guess : String → String) (s : Scenario) : String :=
  "### " ++ s.name ++ "\n" ++
    (if s.tags ≠ [] then "!!! note\n" ++ "    " ++ tagLine s.tags ++ "\n" ++ "\n" else "") ++
    String.join (s.steps.map (format_step guess)) ++
    "\n" ++
    (if s.isOutline then String.join (s.examples.map format_examples) else "")

/-- Model of `FeatureFormatter.feature`: heading, optional tag admonition, dot-stripped
description lines, optional background, scenarios. -/
def format_feature (guess : String → String) (f : Feature) : String :=
  "# " ++ f.name ++ "\n" ++
    (if f.tags ≠ [] then "!!! note\n" ++ "    " ++ tagLine f.tags ++ "\n" ++ "\n" else "") ++
    String.join ((f.description.map (fun l => String.mk (stripDotLine l.data))).map
      (fun l => l ++ "\n")) ++
    "\n" ++
    (if f.background ≠ [] then
      "## Background\n" ++ "\n" ++ String.join (f.background.map (format_step guess))
    else "") ++
    "## Scenarios\n" ++
    String.join (f.scenarios.map (format_scenario guess))

/-- How the nested `run_module('behave.__main__', ...)` call can leave the
`try` body: fall through, raise `SystemExit(code)` (behave's normal way out),
or raise any other exception. -/
inductive RunOutcome where
  | completed : RunOutcome
  | systemExit (code : Nat) : RunOutcome
  | raised : RunOutcome

/-- An exception escaping the `try` statement of `_run_behave`. -/
inductive PyExn where
  | other : PyExn

/-- The process state `_run_behave` touches: `sys.argv` and the log. -/
structure ProcState where
  argv : List String
  warnings : List String

/-- The argv the `try` body installs before `run_module`. -/
def behaveArgv : List String :=
  ["", "--dry-run", "--no-summary", "--format", "mkdocs_behave.plugin:ConfiguredFeatureFormatter"]

/-- The warning `_run_behave` logs on a truthy `SystemExit` code. -/
def behaveWarning : String :=
  "Behave did not complete successfully. Some features may not have been processed."

/-- The `try` body of `_run_behave`: set `sys.argv`, run behave, and report
how the body exits. -/
def runBehaveBody (outcome : RunOutcome) (s : ProcState) : ProcState × Option PyExn :=
  let s1 : ProcState := { argv := behaveArgv, warnings := s.warnings }
  match outcome with
  | .completed => (s1, none)
  | .systemExit code =>
      -- `except SystemExit as e: if e.code: log.warning(...)` swallows the exit
      if code ≠ 0 then ({ s1 with warnings := s1.warnings ++ [behaveWarning] }, none)
      else (s1, none)
  | .raised => (s1, some .other)

/-- Model of `BehavePlugin._run_behave`: save `sys.argv`, run the body with the
`except SystemExit` handler folded in, and restore the saved argv in the
`finally` clause on every exit path (the pending exception, if any, keeps
propagating). -/
def run_behave (outcome : RunOutcome) (s : ProcState) : ProcState × Option PyExn :=
  let saved := s.argv
  let afterBody := runBehaveBody outcome s
  ({ afterBody.1 with argv := saved }, afterBody.2)

/-- Result of `BehavePlugin.on_page_read_source`: Python `None` (defer to
MkDocs), a returned string, or an uncaught `KeyError` from
`rendered_features[feature_path]`. -/
inductive ReadSourceResult where
  | deferToDefault : ReadSourceResult
  | content (text : String) : ReadSourceResult
  | keyError (key : List Char) : ReadSourceResult

/-- Dict lookup in `FeatureFormatter.rendered_features`. -/
def lookupRendered : List (List Char × String) → List Char → Option String
  | [], _ => none
  | (k, v) :: rest, key => if k = key then some v else lookupRendered rest key

/-- Model of `BehavePlugin.on_page_read_source`: pages whose `src_uri` is in
`_handled_feature_files` get the rendered text stored under the path converted
back to the `.feature` suffix; a missing entry raises `KeyError`; other pages
defer to default handling by returning `None`. -/
def on_page_read_source (handled : List (List Char)) (rendered : List (List Char × String))
    (srcUri : List Char) : ReadSourceResult :=
  if handled.any (fun q => q = srcUri) then
    match lookupRendered rendered (with_suffix srcUri featExt) with
    | some text => .content text
    | none => .keyError (with_suffix srcUri featExt)
  else .deferToDefault

/-- Does `pat` occur as a contiguous run anywhere in `l`?  (Auxiliary for
stating that a heading string is absent from an output.) -/
def containsSeq : List Char → List Char → Bool
  | [], pat => startswith [] pat
  | c :: rest, pat => startswith (c :: rest) pat || containsSeq rest pat

theorem startswith_iff (l pre : List Char) :
    startswith l pre = true ↔ ∃ r, l = pre ++ r := by
  induction pre generalizing l with
  | nil => simp [startswith]
  | cons p ps ih =>
    cases l with
    | nil => simp [startswith]
    | cons c cs => simp [startswith, ih]

theorem startswith_append (pre rest : List Char) :
    startswith (pre ++ rest) pre = true :=
  (startswith_iff _ _).2 ⟨rest, rfl⟩

theorem endswith_iff (l suf : List Char) :
    endswith l suf = true ↔ ∃ xs, l = xs ++ suf := by
  unfold endswith
  rw [startswith_iff]
  constructor
  · rintro ⟨r, hr⟩
    refine ⟨r.reverse, ?_⟩
    have := congrArg List.reverse hr
    simpa using this
  · rintro ⟨xs, rfl⟩
    exact ⟨xs.reverse, by simp⟩

theorem endswith_append (xs suf : List Char) :
    endswith (xs ++ suf) suf = true :=
  (endswith_iff _ _).2 ⟨xs, rfl⟩

theorem startswith_of_startswith :
    ∀ r a b : List Char, startswith r a = true → startswith r b = true →
      a.length ≤ b.length → startswith b a = true := by
  intro r
  induction r with
  | nil =>
    intro a b ha _ _
    cases a with
    | nil => simp [startswith]
    | cons x xs => simp [startswith] at ha
  | cons c cs ih =>
    intro a b ha hb hlen
    cases a with
    | nil => cases b <;> simp [startswith]
    | cons x xs =>
      cases b with
      | nil => simp at hlen
      | cons y ys =>
        simp only [startswith, Bool.and_eq_true, decide_eq_true_eq] at ha hb ⊢
        refine ⟨hb.1.symm.trans ha.1, ih xs ys ha.2 hb.2 ?_⟩
        simpa using hlen

/-- Two suffixes of one string: the shorter is a suffix of the longer. -/
theorem endswith_of_endswith (l a b : List Char) (ha : endswith l a = true)
    (hb : endswith l b = true) (hlen : a.length ≤ b.length) :
    endswith b a = true := by
  unfold endswith at *
  exact startswith_of_startswith l.reverse a.reverse b.reverse ha hb (by simpa using hlen)

theorem mem_of_endswith {l suf : List Char} (h : endswith l suf = true) {c : Char}
    (hc : c ∈ suf) : c ∈ l := by
  obtain ⟨xs, rfl⟩ := (endswith_iff _ _).1 h
  exact List.mem_append_right _ hc

theorem dirOf_append_nameOf (p : List Char) : dirOf p ++ nameOf p = p := by
  unfold dirOf nameOf
  rw [← List.reverse_append, List.takeWhile_append_dropWhile, List.reverse_reverse]

theorem not_slash_mem_nameOf (p : List Char) : '/' ∉ nameOf p := by
  unfold nameOf
  intro h
  rw [List.mem_reverse] at h
  have := List.mem_takeWhile_imp h
  simp at this

theorem takeWhile_append_of_all {q : Char → Bool} (u v : List Char)
    (hu : ∀ a ∈ u, q a = true) :
    (u ++ v).takeWhile q = u ++ v.takeWhile q ∧ (u ++ v).dropWhile q = v.dropWhile q := by
  induction u with
  | nil => simp
  | cons a as ih =>
    have ha : q a = true := hu a (by simp)
    have ih' := ih (fun x hx => hu x (by simp [hx]))
    simp [List.takeWhile_cons, List.dropWhile_cons, ha, ih'.1, ih'.2]

theorem nameOf_append {x y : List Char} (hy : '/' ∉ y) :
    nameOf (x ++ y) = nameOf x ++ y := by
  unfold nameOf
  rw [List.reverse_append]
  have hall : ∀ a ∈ y.reverse, (decide (a ≠ '/')) = true := by
    intro a ha
    rw [List.mem_reverse] at ha
    simp only [decide_eq_true_eq]
    rintro rfl
    exact hy ha
  rw [(takeWhile_append_of_all _ _ hall).1]
  simp

theorem dirOf_append {x y : List Char} (hy : '/' ∉ y) :
    dirOf (x ++ y) = dirOf x := by
  unfold dirOf
  rw [List.reverse_append]
  have hall : ∀ a ∈ y.reverse, (decide (a ≠ '/')) = true := by
    intro a ha
    rw [List.mem_reverse] at ha
    simp only [decide_eq_true_eq]
    rintro rfl
    exact hy ha
  rw [(takeWhile_append_of_all _ _ hall).2]

theorem dropWhile_head_false {q : Char → Bool} :
    ∀ l h t, List.dropWhile q l = h :: t → q h = false := by
  intro l
  induction l with
  | nil => intro h t hd; simp at hd
  | cons a as ih =>
    intro h t hd
    rw [List.dropWhile_cons] at hd
    by_cases hq : q a = true
    · rw [if_pos hq] at hd
      exact ih h t hd
    · rw [if_neg hq] at hd
      cases hd
      simpa using hq

theorem dirOf_cases (p : List Char) : dirOf p = [] ∨ ∃ d, dirOf p = d ++ ['/'] := by
  unfold dirOf
  rcases hd : p.reverse.dropWhile (fun c => c ≠ '/') with _ | ⟨h, t⟩
  · left; rfl
  · right
    refine ⟨t.reverse, ?_⟩
    have hhead := dropWhile_head_false _ _ _ hd
    simp only [decide_eq_false_iff_not, not_not] at hhead
    subst hhead
    simp

theorem dirOf_dirOf (p : List Char) : dirOf (dirOf p) = dirOf p := by
  rcases dirOf_cases p with h | ⟨d, h⟩
  · rw [h]; rfl
  · rw [h]
    unfold dirOf
    rw [List.reverse_append]
    simp [List.dropWhile_cons]

theorem nameOf_dirOf (p : List Char) : nameOf (dirOf p) = [] := by
  rcases dirOf_cases p with h | ⟨d, h⟩
  · rw [h]; rfl
  · rw [h]
    unfold nameOf
    rw [List.reverse_append]
    simp [List.takeWhile_cons]

theorem stemOfName_append_dot {s t : List Char} (ht : '.' ∉ t) (htne : t ≠ [])
    (hsne : s ≠ []) : stemOfName (s ++ '.' :: t) = s := by
  unfold stemOfName
  have hall : ∀ a ∈ t.reverse, (decide (a ≠ '.')) = true := by
    intro a ha
    rw [List.mem_reverse] at ha
    simp only [decide_eq_true_eq]
    rintro rfl
    exact ht ha
  have hsplit := takeWhile_append_of_all t.reverse ('.' :: s.reverse) hall
  have hrev : (s ++ '.' :: t).reverse = t.reverse ++ '.' :: s.reverse := by simp
  have hdrop : (s ++ '.' :: t).reverse.dropWhile (fun c => c ≠ '.') = '.' :: s.reverse := by
    rw [hrev, hsplit.2]
    simp [List.dropWhile_cons]
  have htake : (s ++ '.' :: t).reverse.takeWhile (fun c => c ≠ '.') = t.reverse := by
    rw [hrev, hsplit.1]
    simp [List.takeWhile_cons]
  rw [hdrop, htake]
  simp [hsne, htne]

/-- A slash-free suffix of a path is a suffix of its final component. -/
theorem endswith_nameOf_of_endswith {p suf : List Char} (hsuf : '/' ∉ suf)
    (h : endswith p suf = true) : endswith (nameOf p) suf = true := by
  by_cases hlen : suf.length ≤ (nameOf p).length
  · have hname : endswith p (nameOf p) = true := by
      have := endswith_append (dirOf p) (nameOf p)
      rwa [dirOf_append_nameOf] at this
    exact endswith_of_endswith p suf (nameOf p) h hname hlen
  · exfalso
    push_neg at hlen
    obtain ⟨xs, hxs⟩ := (endswith_iff _ _).1 h
    have hlp : p.length = (dirOf p).length + (nameOf p).length := by
      conv_lhs => rw [← dirOf_append_nameOf p]
      exact List.length_append _ _
    have hdir : dirOf p ≠ [] := by
      intro hnil
      have : p.length = (nameOf p).length := by simp [hlp, hnil]
      have hsp : suf.length ≤ p.length := by
        rw [hxs]; simp
      omega
    rcases dirOf_cases p with hnil | ⟨d, hd⟩
    · exact hdir hnil
    · have hdecomp : p = d ++ '/' :: nameOf p := by
        conv_lhs => rw [← dirOf_append_nameOf p]
        rw [hd]
        simp
      have h1 : endswith p ('/' :: nameOf p) = true := by
        have := endswith_append d ('/' :: nameOf p)
        rwa [← hdecomp] at this
      have h2 : endswith suf ('/' :: nameOf p) = true :=
        endswith_of_endswith p _ suf h1 h (by simpa using hlen)
      exact hsuf (mem_of_endswith h2 (by simp))

/-- Core property of the `.feature` → `.md` rewrite: the result ends in `.md`,
keeps the directory part and the stem, and no longer ends in `.feature`. -/
theorem with_suffix_md_spec {p : List Char} (h : endswith p featExt = true) :
    endswith (with_suffix p mdExt) mdExt = true ∧
    dirOf (with_suffix p mdExt) = dirOf p ∧
    stemOfName (nameOf (with_suffix p mdExt)) = stemOfName (nameOf p) ∧
    endswith (with_suffix p mdExt) featExt = false := by
  have hn : endswith (nameOf p) featExt = true :=
    endswith_nameOf_of_endswith (by decide) h
  obtain ⟨s, hs⟩ := (endswith_iff _ _).1 hn
  have hfeat : featExt = '.' :: "feature".data := rfl
  have hmd : mdExt = '.' :: "md".data := rfl
  have hstem : stemOfName (nameOf p) ≠ [] ∧ '/' ∉ stemOfName (nameOf p) := by
    by_cases hse : s = []
    · subst hse
      simp only [List.nil_append] at hs
      rw [hs]
      constructor
      · decide
      · decide
    · have : stemOfName (nameOf p) = s := by
        rw [hs, hfeat]
        exact stemOfName_append_dot (by decide) (by decide) hse
      rw [this]
      refine ⟨hse, fun hsl => ?_⟩
      exact not_slash_mem_nameOf p (by rw [hs]; exact List.mem_append_left _ hsl)
  have hnoslash : '/' ∉ stemOfName (nameOf p) ++ mdExt := by
    intro hmem
    rcases List.mem_append.1 hmem with h1 | h1
    · exact hstem.2 h1
    · revert h1; decide
  have hws : with_suffix p mdExt = dirOf p ++ (stemOfName (nameOf p) ++ mdExt) := by
    unfold with_suffix
    rw [List.append_assoc]
  have hend : endswith (with_suffix p mdExt) mdExt = true := by
    unfold with_suffix
    exact endswith_append _ _
  refine ⟨hend, ?_, ?_, ?_⟩
  · rw [hws, dirOf_append hnoslash, dirOf_dirOf]
  · rw [hws, nameOf_append hnoslash, nameOf_dirOf, List.nil_append, hmd]
    exact stemOfName_append_dot (by decide) (by decide) hstem.1
  · by_contra hcon
    rw [Bool.not_eq_false] at hcon
    have := endswith_of_endswith _ mdExt featExt hend hcon (by decide)
    revert this
    decide

theorem splitQuote_eq_none {s : List Char} (h : splitQuote s = none) : '"' ∉ s := by
  induction s with
  | nil => simp
  | cons c cs ih =>
    rw [splitQuote] at h
    by_cases hc : c = '"'
    · rw [if_pos hc] at h
      cases h
    · rw [if_neg hc] at h
      rcases hq : splitQuote cs with _ | pr
      · intro hm
        rcases List.mem_cons.1 hm with hh | hh
        · exact hc hh.symm
        · exact ih hq hh
      · rw [hq] at h
        cases h

theorem splitQuote_eq_some {s a b : List Char} (h : splitQuote s = some (a, b)) :
    s = a ++ '"' :: b ∧ '"' ∉ a ∧ b.length < s.length := by
  induction s generalizing a b with
  | nil => cases h
  | cons c cs ih =>
    rw [splitQuote] at h
    by_cases hc : c = '"'
    · rw [if_pos hc] at h
      cases h
      subst hc
      simp
    · rw [if_neg hc] at h
      rcases hq : splitQuote cs with _ | ⟨a', b'⟩
      · rw [hq] at h; cases h
      · rw [hq] at h
        cases h
        obtain ⟨h1, h2, h3⟩ := ih hq
        refine ⟨by rw [h1]; simp, ?_, by simpa using Nat.lt_succ_of_lt h3⟩
        intro hm
        rcases List.mem_cons.1 hm with hh | hh
        · exact hc hh.symm
        · exact h2 hh

theorem splitQuote_of_no_quote {s : List Char} (h : '"' ∉ s) : splitQuote s = none := by
  induction s with
  | nil => rfl
  | cons c cs ih =>
    rw [splitQuote]
    have hc : ¬ c = '"' := by
      intro hcq
      exact h (by simp [hcq])
    rw [if_neg hc, ih (fun hm => h (by simp [hm]))]
    rfl

theorem splitQuote_append {a r : List Char} (ha : '"' ∉ a) :
    splitQuote (a ++ '"' :: r) = some (a, r) := by
  induction a with
  | nil => simp [splitQuote]
  | cons c cs ih =>
    have hc : ¬ c = '"' := fun hcq => ha (by simp [hcq])
    rw [List.cons_append, splitQuote, if_neg hc, ih (fun hm => ha (by simp [hm]))]
    rfl

theorem leafMem_append (d xs : List NavElement) (p : List Char) :
    leafMem (d ++ xs) p = (leafMem d p || leafMem xs p) := by
  simp [leafMem, List.any_append]

theorem keys_setRest (k : List Char) (v : List NavElement)
    (rest : List (List Char × List NavElement)) :
    (setRest k v rest).map Prod.fst = rest.map Prod.fst := by
  induction rest with
  | nil => rfl
  | cons pr os ih =>
    by_cases h : pr.1 = k <;> simp [setRest, h, ih]

theorem any_setRest (k k' : List Char) (v : List NavElement)
    (rest : List (List Char × List NavElement)) :
    (setRest k v rest).any (fun pr => pr.1 = k') = rest.any (fun pr => pr.1 = k') := by
  induction rest with
  | nil => rfl
  | cons pr os ih =>
    by_cases h : pr.1 = k <;> simp [setRest, h, ih]

theorem find_setRest_self (k : List Char) (v : List NavElement)
    (rest : List (List Char × List NavElement))
    (h : rest.any (fun pr => pr.1 = k) = true) :
    ((setRest k v rest).find? (fun pr => pr.1 = k)).map Prod.snd = some v := by
  induction rest with
  | nil => simp at h
  | cons pr os ih =>
    by_cases hpr : pr.1 = k
    · simp [setRest, hpr, List.find?_cons]
    · have h' : os.any (fun pr => pr.1 = k) = true := by
        simpa [hpr] using h
      simp [setRest, hpr, List.find?_cons, ih h']

theorem find_setRest_other (k k' : List Char) (v : List NavElement)
    (rest : List (List Char × List NavElement)) (hne : k' ≠ k) :
    (setRest k v rest).find? (fun pr => pr.1 = k') = rest.find? (fun pr => pr.1 = k') := by
  have hkk : ¬ k = k' := fun hh => hne hh.symm
  induction rest with
  | nil => rfl
  | cons pr os ih =>
    by_cases hpr : pr.1 = k
    · have hnk : ¬ pr.1 = k' := by rw [hpr]; exact fun hh => hne hh.symm
      simp [setRest, hpr, List.find?_cons, hnk, hkk]
    · by_cases hk' : pr.1 = k'
      · simp [setRest, hpr, List.find?_cons, hk', hne]
      · simp [setRest, hpr, List.find?_cons, hk', ih]

theorem entryHasKey_entrySet (k k' : List Char) (v : List NavElement) (e : NavElement) :
    entryHasKey k' (entrySet k v e) = entryHasKey k' e := by
  cases e with
  | leaf p => rfl
  | node n sub rest =>
    by_cases h : n = k
    · simp [entrySet, h, entryHasKey]
    · simp [entrySet, h, entryHasKey, any_setRest]

theorem entryGet_entrySet_self (k : List Char) (v : List NavElement) (e : NavElement)
    (h : entryHasKey k e = true) : entryGet k (entrySet k v e) = v := by
  cases e with
  | leaf p => simp [entryHasKey] at h
  | node n sub rest =>
    by_cases hn : n = k
    · simp [entrySet, hn, entryGet]
    · have hany : rest.any (fun pr => pr.1 = k) = true := by
        simpa [entryHasKey, hn] using h
      simp [entrySet, hn, entryGet, find_setRest_self k v rest hany]

theorem entryGet_entrySet_other (k k' : List Char) (v : List NavElement) (e : NavElement)
    (hne : k' ≠ k) : entryGet k' (entrySet k v e) = entryGet k' e := by
  cases e with
  | leaf p => rfl
  | node n sub rest =>
    have hkk : ¬ k = k' := fun hh => hne hh.symm
    by_cases hn : n = k
    · have hnk : ¬ n = k' := by rw [hn]; exact fun hh => hne hh.symm
      simp [entrySet, hn, entryGet, hnk, hkk]
    · by_cases hk' : n = k'
      · simp [entrySet, hn, entryGet, hk', hne]
      · simp [entrySet, hn, entryGet, hk', find_setRest_other k k' v rest hne]

theorem lookupGroup_append_some {d : List NavElement} {k : List Char}
    {v : List NavElement} (h : lookupGroup d k = some v) (xs : List NavElement) :
    lookupGroup (d ++ xs) k = some v := by
  induction d with
  | nil => simp [lookupGroup] at h
  | cons e es ih =>
    rw [lookupGroup] at h
    by_cases he : entryHasKey k e = true
    · rw [if_pos he] at h
      simp [lookupGroup, he, h]
    · rw [if_neg he] at h
      simp [lookupGroup, he, ih h]

theorem lookupGroup_append_new {d : List NavElement} {k : List Char}
    (h : lookupGroup d k = none) (v : List NavElement) :
    lookupGroup (d ++ [.node k v []]) k = some v := by
  induction d with
  | nil => simp [lookupGroup, entryHasKey, entryGet]
  | cons e es ih =>
    rw [lookupGroup] at h
    by_cases he : entryHasKey k e = true
    · rw [if_pos he] at h; cases h
    · rw [if_neg he] at h
      simp [lookupGroup, he, ih h]

theorem lookupGroup_setGroup_self {d : List NavElement} {k : List Char}
    {old : List NavElement} (h : lookupGroup d k = some old) (v : List NavElement) :
    lookupGroup (setGroup d k v) k = some v := by
  induction d with
  | nil => simp [lookupGroup] at h
  | cons e es ih =>
    rw [lookupGroup] at h
    by_cases he : entryHasKey k e = true
    · rw [setGroup, if_pos he, lookupGroup, entryHasKey_entrySet, if_pos he,
        entryGet_entrySet_self k v e he]
    · rw [if_neg he] at h
      rw [setGroup, if_neg he, lookupGroup, if_neg he]
      exact ih h

theorem lookupGroup_setGroup_other (d : List NavElement) {k k' : List Char}
    (hne : k' ≠ k) (v : List NavElement) :
    lookupGroup (setGroup d k v) k' = lookupGroup d k' := by
  induction d with
  | nil => rfl
  | cons e es ih =>
    by_cases he : entryHasKey k e = true
    · rw [setGroup, if_pos he, lookupGroup, entryHasKey_entrySet, lookupGroup]
      by_cases he' : entryHasKey k' e = true
      · rw [if_pos he', if_pos he', entryGet_entrySet_other k k' v e hne]
      · rw [if_neg he', if_neg he']
    · rw [setGroup, if_neg he, lookupGroup, lookupGroup]
      by_cases he' : entryHasKey k' e = true
      · rw [if_pos he', if_pos he']
      · rw [if_neg he', if_neg he', ih]

theorem setRest_self {rest : List (List Char × List NavElement)} {k : List Char}
    {v : List NavElement}
    (h : (rest.find? (fun pr => pr.1 = k)).map Prod.snd = some v) :
    setRest k v rest = rest := by
  induction rest with
  | nil => simp at h
  | cons pr os ih =>
    by_cases hpr : pr.1 = k
    · rw [List.find?_cons_of_pos _ (by simpa using hpr)] at h
      have hv : pr.2 = v := by simpa using h
      rw [setRest, if_pos hpr, ← hv]
    · rw [List.find?_cons_of_neg _ (by simpa using hpr)] at h
      rw [setRest, if_neg hpr, ih h]

theorem entrySet_self {e : NavElement} {k : List Char} (he : entryHasKey k e = true)
    (h : entryGet k e = v) : entrySet k v e = e := by
  cases e with
  | leaf p => simp [entryHasKey] at he
  | node n sub rest =>
    by_cases hn : n = k
    · rw [entryGet, if_pos hn] at h
      rw [entrySet, if_pos hn, h]
    · have hany : rest.any (fun pr => pr.1 = k) = true := by
        simpa [entryHasKey, hn] using he
      rw [entryGet, if_neg hn] at h
      rw [entrySet, if_neg hn]
      have hfind : (rest.find? (fun pr => pr.1 = k)).map Prod.snd = some v := by
        rcases hf : rest.find? (fun pr => pr.1 = k) with _ | pr₀
        · rw [List.find?_eq_none] at hf
          rw [List.any_eq_true] at hany
          obtain ⟨x, hx, hpx⟩ := hany
          exact absurd hpx (by simpa using hf x hx)
        · rw [hf] at h
          have hv : pr₀.2 = v := by simpa using h
          rw [hf]
          simp [hv]
      rw [setRest_self hfind]

theorem setGroup_self {d : List NavElement} {k : List Char} {v : List NavElement}
    (h : lookupGroup d k = some v) : setGroup d k v = d := by
  induction d with
  | nil => rfl
  | cons e es ih =>
    rw [lookupGroup] at h
    by_cases he : entryHasKey k e = true
    · rw [if_pos he] at h
      cases h
      rw [setGroup, if_pos he, entrySet_self he rfl]
    · rw [if_neg he] at h
      rw [setGroup, if_neg he, ih h]

theorem leafMem_entrySet (k : List Char) (v : List NavElement) (e : NavElement)
    (p : List Char) :
    (match entrySet k v e with
      | .leaf q => decide (q = p)
      | .node _ _ _ => false) =
    (match e with
      | .leaf q => decide (q = p)
      | .node _ _ _ => false) := by
  cases e with
  | leaf q => rfl
  | node n sub rest => by_cases hn : n = k <;> simp [entrySet, hn]

theorem leafMem_setGroup (d : List NavElement) (k : List Char) (v : List NavElement)
    (p : List Char) : leafMem (setGroup d k v) p = leafMem d p := by
  induction d with
  | nil => rfl
  | cons e es ih =>
    by_cases he : entryHasKey k e = true
    · rw [setGroup, if_pos he]
      simp only [leafMem, List.any_cons]
      rw [leafMem_entrySet]
    · rw [setGroup, if_neg he]
      simp only [leafMem, List.any_cons]
      simp only [leafMem] at ih
      rw [ih]

theorem merge_nil (d : List NavElement) : merge d [] = d := by
  simp [merge]

theorem merge_leaf (d : List NavElement) (p : List Char) (rest : List NavElement) :
    merge d (.leaf p :: rest) =
      merge (if leafMem d p then d else d ++ [.leaf p]) rest := by
  rw [merge]

theorem merge_node_found {d : List NavElement} {n : List Char} {old : List NavElement}
    (h : lookupGroup d (normName n) = some old) (sub : List NavElement)
    (others : List (List Char × List NavElement)) (rest : List NavElement) :
    merge d (.node n sub others :: rest) =
      merge (setGroup d (normName n) (merge old sub)) rest := by
  rw [merge, h]

theorem merge_node_new {d : List NavElement} {n : List Char}
    (h : lookupGroup d (normName n) = none) (sub : List NavElement)
    (others : List (List Char × List NavElement)) (rest : List NavElement) :
    merge d (.node n sub others :: rest) =
      merge (d ++ [.node (normName n) (merge [] sub) []]) rest := by
  rw [merge, h]

theorem absorbedElem_leaf (p : List Char) (d : List NavElement) :
    absorbedElem (.leaf p) d ↔ leafMem d p = true := by
  rw [absorbedElem]

theorem absorbedElem_node (n : List Char) (sub : List NavElement)
    (others : List (List Char × List NavElement)) (d : List NavElement) :
    absorbedElem (.node n sub others) d ↔
      ∃ old, lookupGroup d (normName n) = some old ∧ ∀ e ∈ sub, absorbedElem e old := by
  rw [absorbedElem]

theorem absorbedElem_append (e : NavElement) (d xs : List NavElement)
    (h : absorbedElem e d) : absorbedElem e (d ++ xs) := by
  cases e with
  | leaf p =>
    rw [absorbedElem_leaf] at h ⊢
    rw [leafMem_append, h]
    rfl
  | node n sub others =>
    rw [absorbedElem_node] at h ⊢
    obtain ⟨old, hl, ha⟩ := h
    exact ⟨old, lookupGroup_append_some hl xs, ha⟩

/-- Merging more source material never removes what is already absorbed. -/
theorem absorbedElem_merge (e : NavElement) (d s : List NavElement)
    (h : absorbedElem e d) : absorbedElem e (merge d s) := by
  match s, e with
  | [], e =>
    rw [merge_nil]
    exact h
  | .leaf p :: s', e =>
    rw [merge_leaf]
    refine absorbedElem_merge e _ s' ?_
    by_cases hm : leafMem d p = true
    · rw [hm]
      exact h
    · rw [Bool.not_eq_true] at hm
      rw [hm]
      exact absorbedElem_append e d _ h
  | .node m msub mrest :: s', e =>
    cases hl : lookupGroup d (normName m) with
    | none =>
      rw [merge_node_new hl]
      exact absorbedElem_merge e _ s' (absorbedElem_append e d _ h)
    | some mold =>
      rw [merge_node_found hl]
      refine absorbedElem_merge e _ s' ?_
      match e, h with
      | .leaf p, h =>
        rw [absorbedElem_leaf] at h ⊢
        rw [leafMem_setGroup]
        exact h
      | .node n sub others, h =>
        rw [absorbedElem_node] at h ⊢
        obtain ⟨old, hol, ha⟩ := h
        by_cases hk : normName n = normName m
        · rw [hk] at hol
          rw [hol] at hl
          injection hl with hh
          subst hh
          refine ⟨merge old msub, ?_, ?_⟩
          · rw [hk]
            exact lookupGroup_setGroup_self hol _
          · intro e' he'
            exact absorbedElem_merge e' old msub (ha e' he')
        · exact ⟨old, by rw [lookupGroup_setGroup_other d hk]; exact hol, ha⟩
termination_by sizeOf e + sizeOf s
decreasing_by
  all_goals simp_wf
  all_goals try omega
  all_goals
    have h1 : sizeOf e' < sizeOf sub := List.sizeOf_lt_of_mem (by assumption)
  all_goals omega

/-- After a merge, every source element is absorbed in the result. -/
theorem absorbed_of_merge (d s : List NavElement) :
    ∀ e ∈ s, absorbedElem e (merge d s) := by
  match s with
  | [] =>
    intro e he
    simp at he
  | .leaf p :: s' =>
    intro e he
    rw [merge_leaf]
    rcases List.mem_cons.1 he with rfl | he'
    · refine absorbedElem_merge _ _ s' ?_
      rw [absorbedElem_leaf]
      by_cases hm : leafMem d p = true
      · rw [hm]
        exact hm
      · rw [Bool.not_eq_true] at hm
        rw [hm, if_neg (by simp), leafMem_append]
        simp [leafMem]
    · exact absorbed_of_merge _ s' e he'
  | .node m msub mrest :: s' =>
    intro e he
    cases hl : lookupGroup d (normName m) with
    | some mold =>
      rw [merge_node_found hl]
      rcases List.mem_cons.1 he with rfl | he'
      · refine absorbedElem_merge _ _ s' ?_
        rw [absorbedElem_node]
        refine ⟨merge mold msub, lookupGroup_setGroup_self hl _, ?_⟩
        intro e' hme
        exact absorbed_of_merge mold msub e' hme
      · exact absorbed_of_merge _ s' e he'
    | none =>
      rw [merge_node_new hl]
      rcases List.mem_cons.1 he with rfl | he'
      · refine absorbedElem_merge _ _ s' ?_
        rw [absorbedElem_node]
        refine ⟨merge [] msub, lookupGroup_append_new hl _, ?_⟩
        intro e' hme
        exact absorbed_of_merge [] msub e' hme
      · exact absorbed_of_merge _ s' e he'
termination_by sizeOf s
decreasing_by
  all_goals simp_wf
  all_goals omega

/-- Merging a source that is already absorbed changes nothing. -/
theorem merge_of_absorbed (d s : List NavElement)
    (h : ∀ e ∈ s, absorbedElem e d) : merge d s = d := by
  match s with
  | [] => exact merge_nil d
  | .leaf p :: s' =>
    have hp := h _ (List.mem_cons_self _ _)
    rw [absorbedElem_leaf] at hp
    rw [merge_leaf, if_pos hp]
    exact merge_of_absorbed d s' (fun e he => h e (List.mem_cons_of_mem _ he))
  | .node m msub mrest :: s' =>
    have hm := h _ (List.mem_cons_self _ _)
    rw [absorbedElem_node] at hm
    obtain ⟨old, hol, ha⟩ := hm
    rw [merge_node_found hol, merge_of_absorbed old msub ha, setGroup_self hol]
    exact merge_of_absorbed d s' (fun e he => h e (List.mem_cons_of_mem _ he))
termination_by sizeOf s
decreasing_by
  all_goals simp_wf
  all_goals omega

theorem subsInv_nil : subsInv [] := by
  rw [subsInv]
  trivial

theorem subsInv_leaf (p : List Char) (rest : List NavElement) :
    subsInv (.leaf p :: rest) ↔ subsInv rest := by
  rw [subsInv]

theorem subsInv_node (n : List Char) (sub : List NavElement)
    (others : List (List Char × List NavElement)) (rest : List NavElement) :
    subsInv (.node n sub others :: rest) ↔
      ((levelKeys sub).Nodup ∧ subsInv sub) ∧ entriesInv others ∧ subsInv rest := by
  rw [subsInv]

theorem entriesInv_nil : entriesInv [] := by
  rw [entriesInv]
  trivial

theorem entriesInv_cons (k : List Char) (t : List NavElement)
    (os : List (List Char × List NavElement)) :
    entriesInv ((k, t) :: os) ↔
      ((levelKeys t).Nodup ∧ subsInv t) ∧ entriesInv os := by
  rw [entriesInv]

theorem levelKeys_append (a b : List NavElement) :
    levelKeys (a ++ b) = levelKeys a ++ levelKeys b := by
  induction a with
  | nil => simp [levelKeys]
  | cons e es ih =>
    cases e with
    | leaf p => simpa [levelKeys] using ih
    | node n sub others => simp [levelKeys, ih]

theorem subsInv_append {a b : List NavElement} (ha : subsInv a) (hb : subsInv b) :
    subsInv (a ++ b) := by
  induction a with
  | nil => simpa using hb
  | cons e es ih =>
    cases e with
    | leaf p =>
      rw [List.cons_append, subsInv_leaf]
      rw [subsInv_leaf] at ha
      exact ih ha
    | node n sub others =>
      rw [List.cons_append, subsInv_node]
      rw [subsInv_node] at ha
      exact ⟨ha.1, ha.2.1, ih ha.2.2⟩

theorem entryHasKey_iff_mem (k : List Char) (n : List Char) (sub : List NavElement)
    (others : List (List Char × List NavElement)) :
    entryHasKey k (.node n sub others) = true ↔ k ∈ n :: others.map Prod.fst := by
  simp only [entryHasKey, Bool.or_eq_true, decide_eq_true_eq, List.any_eq_true,
    List.mem_cons, List.mem_map]
  constructor
  · rintro (h | h)
    · exact Or.inl h.symm
    · exact Or.inr h
  · rintro (h | h)
    · exact Or.inl h.symm
    · exact Or.inr h

theorem lookupGroup_none_not_mem {d : List NavElement} {k : List Char}
    (h : lookupGroup d k = none) : k ∉ levelKeys d := by
  induction d with
  | nil => simp [levelKeys]
  | cons e es ih =>
    rw [lookupGroup] at h
    by_cases he : entryHasKey k e = true
    · rw [if_pos he] at h
      cases h
    · rw [if_neg he] at h
      cases e with
      | leaf p =>
        rw [levelKeys]
        exact ih h
      | node n sub others =>
        rw [levelKeys]
        intro hmem
        rcases List.mem_append.1 hmem with hmem | hmem
        · exact he ((entryHasKey_iff_mem k n sub others).2 hmem)
        · exact ih h hmem

theorem entriesInv_find {os : List (List Char × List NavElement)} {k : List Char}
    {pr : List Char × List NavElement} (hinv : entriesInv os)
    (h : os.find? (fun pr => pr.1 = k) = some pr) :
    (levelKeys pr.2).Nodup ∧ subsInv pr.2 := by
  induction os with
  | nil => cases h
  | cons pr₀ os' ih =>
    rw [entriesInv_cons pr₀.1 pr₀.2 os'] at hinv
    by_cases hp : pr₀.1 = k
    · rw [List.find?_cons_of_pos _ (by simpa using hp)] at h
      cases h
      exact hinv.1
    · rw [List.find?_cons_of_neg _ (by simpa using hp)] at h
      exact ih hinv.2 h

theorem find_some_of_any {os : List (List Char × List NavElement)} {k : List Char}
    (h : os.any (fun pr => pr.1 = k) = true) :
    ∃ pr, os.find? (fun pr => pr.1 = k) = some pr := by
  cases hf : os.find? (fun pr => pr.1 = k) with
  | some pr => exact ⟨pr, rfl⟩
  | none =>
    rw [List.find?_eq_none] at hf
    rw [List.any_eq_true] at h
    obtain ⟨x, hx, hpx⟩ := h
    exact absurd hpx (by simpa using hf x hx)

theorem lookup_some_inv {d : List NavElement} {k : List Char} {v : List NavElement}
    (hinv : subsInv d) (h : lookupGroup d k = some v) :
    (levelKeys v).Nodup ∧ subsInv v := by
  induction d with
  | nil => cases h
  | cons e es ih =>
    rw [lookupGroup] at h
    by_cases he : entryHasKey k e = true
    · rw [if_pos he] at h
      injection h with hv
      cases e with
      | leaf p => simp [entryHasKey] at he
      | node n sub others =>
        rw [subsInv_node] at hinv
        by_cases hn : n = k
        · rw [entryGet, if_pos hn] at hv
          rw [← hv]
          exact hinv.1
        · rw [entryGet, if_neg hn] at hv
          have hany : others.any (fun pr => pr.1 = k) = true := by
            simpa [entryHasKey, hn] using he
          obtain ⟨pr, hpr⟩ := find_some_of_any hany
          rw [hpr] at hv
          simp only [Option.map_some'] at hv
          rw [Option.getD_some] at hv
          rw [← hv]
          exact entriesInv_find hinv.2.1 hpr
    · rw [if_neg he] at h
      cases e with
      | leaf p =>
        rw [subsInv_leaf] at hinv
        exact ih hinv h
      | node n sub others =>
        rw [subsInv_node] at hinv
        exact ih hinv.2.2 h

theorem levelKeys_setGroup (d : List NavElement) (k : List Char) (v : List NavElement) :
    levelKeys (setGroup d k v) = levelKeys d := by
  induction d with
  | nil => rfl
  | cons e es ih =>
    by_cases he : entryHasKey k e = true
    · rw [setGroup, if_pos he]
      cases e with
      | leaf p => rfl
      | node n sub others =>
        by_cases hn : n = k
        · simp [entrySet, hn, levelKeys]
        · simp [entrySet, hn, levelKeys, keys_setRest]
    · rw [setGroup, if_neg he]
      cases e with
      | leaf p =>
        rw [levelKeys, levelKeys, ih]
      | node n sub others =>
        rw [levelKeys, levelKeys, ih]

theorem entriesInv_setRest {os : List (List Char × List NavElement)} {k : List Char}
    {v : List NavElement} (hinv : entriesInv os)
    (hv : (levelKeys v).Nodup ∧ subsInv v) : entriesInv (setRest k v os) := by
  induction os with
  | nil => exact entriesInv_nil
  | cons pr os' ih =>
    rw [entriesInv_cons pr.1 pr.2 os'] at hinv
    by_cases hp : pr.1 = k
    · rw [setRest, if_pos hp, entriesInv_cons]
      exact ⟨hv, hinv.2⟩
    · rw [setRest, if_neg hp]
      exact (entriesInv_cons pr.1 pr.2 _).2 ⟨hinv.1, ih hinv.2⟩

theorem subsInv_setGroup {d : List NavElement} {k : List Char} {v : List NavElement}
    (hinv : subsInv d) (hv : (levelKeys v).Nodup ∧ subsInv v) :
    subsInv (setGroup d k v) := by
  induction d with
  | nil => exact subsInv_nil
  | cons e es ih =>
    by_cases he : entryHasKey k e = true
    · rw [setGroup, if_pos he]
      cases e with
      | leaf p => simp [entryHasKey] at he
      | node n sub others =>
        rw [subsInv_node] at hinv
        by_cases hn : n = k
        · rw [entrySet, if_pos hn, subsInv_node]
          exact ⟨hv, hinv.2.1, hinv.2.2⟩
        · rw [entrySet, if_neg hn, subsInv_node]
          exact ⟨hinv.1, entriesInv_setRest hinv.2.1 hv, hinv.2.2⟩
    · rw [setGroup, if_neg he]
      cases e with
      | leaf p =>
        rw [subsInv_leaf] at hinv ⊢
        exact ih hinv
      | node n sub others =>
        rw [subsInv_node] at hinv ⊢
        exact ⟨hinv.1, hinv.2.1, ih hinv.2.2⟩

/-- The merge preserves the per-level "no duplicate group names" invariant of
the destination (it never creates a second entry for an existing name, and new
entries go in with fresh names). -/
theorem navInv_merge (d s : List NavElement)
    (hinv : (levelKeys d).Nodup ∧ subsInv d) :
    (levelKeys (merge d s)).Nodup ∧ subsInv (merge d s) := by
  match s with
  | [] =>
    rw [merge_nil]
    exact hinv
  | .leaf p :: s' =>
    rw [merge_leaf]
    refine navInv_merge _ s' ?_
    by_cases hm : leafMem d p = true
    · rw [hm, if_pos rfl]
      exact hinv
    · rw [Bool.not_eq_true] at hm
      rw [hm, if_neg (by simp)]
      constructor
      · rw [levelKeys_append]
        simpa [levelKeys] using hinv.1
      · refine subsInv_append hinv.2 ?_
        rw [subsInv_leaf]
        exact subsInv_nil
  | .node m msub mrest :: s' =>
    cases hl : lookupGroup d (normName m) with
    | some mold =>
      rw [merge_node_found hl]
      refine navInv_merge _ s' ?_
      have hold := lookup_some_inv hinv.2 hl
      have hmerged := navInv_merge mold msub hold
      exact ⟨by rw [levelKeys_setGroup]; exact hinv.1, subsInv_setGroup hinv.2 hmerged⟩
    | none =>
      rw [merge_node_new hl]
      refine navInv_merge _ s' ?_
      have hnew := navInv_merge [] msub ⟨by simp [levelKeys], subsInv_nil⟩
      constructor
      · rw [levelKeys_append]
        have hsing : levelKeys [NavElement.node (normName m) (merge [] msub) []]
            = [normName m] := by
          simp [levelKeys]
        rw [hsing, List.nodup_append]
        refine ⟨hinv.1, List.nodup_singleton _, ?_⟩
        intro a ha hb
        rw [List.mem_singleton] at hb
        subst hb
        exact lookupGroup_none_not_mem hl ha
      · refine subsInv_append hinv.2 ?_
        rw [subsInv_node]
        exact ⟨hnew, entriesInv_nil, subsInv_nil⟩
termination_by sizeOf s
decreasing_by
  all_goals simp_wf
  all_goals omega

theorem rename_nil : rename_features_in_nav [] = [] := by
  rw [rename_features_in_nav]

theorem rename_leaf_cons (p : List Char) (rest : List NavElement) :
    rename_features_in_nav (.leaf p :: rest) =
      .leaf (renameLeaf p) :: rename_features_in_nav rest := by
  rw [rename_features_in_nav]

theorem rename_node_cons (n : List Char) (sub : List NavElement)
    (others : List (List Char × List NavElement)) (rest : List NavElement) :
    rename_features_in_nav (.node n sub others :: rest) =
      .node n (rename_features_in_nav sub) others :: rename_features_in_nav rest := by
  rw [rename_features_in_nav]

theorem rename_append (a b : List NavElement) :
    rename_features_in_nav (a ++ b) =
      rename_features_in_nav a ++ rename_features_in_nav b := by
  induction a with
  | nil => rw [rename_nil, List.nil_append, List.nil_append]
  | cons e es ih =>
    cases e with
    | leaf p => rw [List.cons_append, rename_leaf_cons, rename_leaf_cons, ih, List.cons_append]
    | node n sub others =>
      rw [List.cons_append, rename_node_cons, rename_node_cons, ih, List.cons_append]

theorem allLeaves_nil : allLeaves [] = [] := by
  rw [allLeaves]

theorem allLeaves_leaf (p : List Char) (rest : List NavElement) :
    allLeaves (.leaf p :: rest) = p :: allLeaves rest := by
  rw [allLeaves]

theorem allLeaves_node (n : List Char) (sub : List NavElement)
    (others : List (List Char × List NavElement)) (rest : List NavElement) :
    allLeaves (.node n sub others :: rest) =
      allLeaves sub ++ entryLeaves others ++ allLeaves rest := by
  rw [allLeaves]

theorem entryLeaves_nil : entryLeaves [] = [] := by
  rw [entryLeaves]

theorem singleKey_nil : singleKey [] = true := by
  rw [singleKey]

theorem singleKey_leaf (p : List Char) (rest : List NavElement) :
    singleKey (.leaf p :: rest) = singleKey rest := by
  rw [singleKey]

theorem singleKey_node (n : List Char) (sub : List NavElement)
    (others : List (List Char × List NavElement)) (rest : List NavElement) :
    singleKey (.node n sub others :: rest) =
      (others.isEmpty && singleKey sub && singleKey rest) := by
  rw [singleKey]

/-- On single-key trees (the spec's Navigation Tree data model) the rename
rewrites exactly the leaf list, positionally, by `renameLeaf`. -/
theorem allLeaves_rename (t : List NavElement) (h : singleKey t = true) :
    allLeaves (rename_features_in_nav t) = (allLeaves t).map renameLeaf := by
  match t with
  | [] =>
    rw [rename_nil, allLeaves_nil]
    rfl
  | .leaf p :: rest =>
    rw [singleKey_leaf] at h
    rw [rename_leaf_cons, allLeaves_leaf, allLeaves_leaf, List.map_cons,
      allLeaves_rename rest h]
  | .node n sub others :: rest =>
    rw [singleKey_node] at h
    simp only [Bool.and_eq_true, List.isEmpty_eq_true] at h
    obtain ⟨⟨hothers, hsub⟩, hrest⟩ := h
    subst hothers
    rw [rename_node_cons, allLeaves_node, allLeaves_node, entryLeaves_nil,
      allLeaves_rename sub hsub, allLeaves_rename rest hrest]
    simp
termination_by sizeOf t
decreasing_by
  all_goals simp_wf
  all_goals omega

theorem countLeaf_append (a b : List NavElement) (q : List Char) :
    countLeaf (a ++ b) q = countLeaf a q + countLeaf b q := by
  induction a with
  | nil => simp [countLeaf]
  | cons e es ih =>
    cases e with
    | leaf p =>
      rw [List.cons_append, countLeaf, countLeaf, ih]
      omega
    | node n sub others => rw [List.cons_append, countLeaf, countLeaf, ih]

theorem countLeaf_rename_of_mem {d : List NavElement} {q : List Char}
    (hmem : leafMem d q = true) (hq : renameLeaf q = q) :
    1 ≤ countLeaf (rename_features_in_nav d) q := by
  induction d with
  | nil => simp [leafMem] at hmem
  | cons e es ih =>
    cases e with
    | leaf p =>
      rw [rename_leaf_cons, countLeaf]
      by_cases hp : p = q
      · subst hp
        rw [hq, if_pos rfl]
        omega
      · have hmem' : leafMem es q = true := by
          simpa [leafMem, hp] using hmem
        have := ih hmem'
        omega
    | node n sub others =>
      rw [rename_node_cons, countLeaf]
      refine ih ?_
      simpa [leafMem] using hmem

/-- Claim C2: the navigation merge is idempotent — for every destination tree
T1 and source tree T2, `merge (merge T1 T2) T2 = merge T1 T2`; in particular
re-merging the same source appends no duplicate leaf and creates no duplicate
group entry, since the tree is unchanged. -/
theorem merge_idempotent (t1 t2 : List NavElement) :
    merge (merge t1 t2) t2 = merge t1 t2 :=
  merge_of_absorbed _ _ (absorbed_of_merge t1 t2)

/-- Claim C7, counterexample: for a destination that already holds two
mapping entries named `A` at one level, the merge leaves both in place (it
merges into the first), so "at most one mapping entry per distinct group name
after the merge" fails there: the key list after the merge is `[A, A]`. -/
theorem c7_counterexample :
    levelKeys (merge [.node ['A'] [] [], .node ['A'] [] []]
        [.node ['a'] [.leaf ['x']] []]) = [['A'], ['A']] ∧
    ¬ (levelKeys (merge [.node ['A'] [] [], .node ['A'] [] []]
        [.node ['a'] [.leaf ['x']] []])).Nodup := by
  have hfound : lookupGroup [NavElement.node ['A'] [] [], NavElement.node ['A'] [] []]
      (normName ['a']) = some [] := rfl
  rw [merge_node_found hfound, merge_nil]
  rw [show merge [] [NavElement.leaf ['x']] = [NavElement.leaf ['x']] from by
    rw [merge_leaf, merge_nil, if_neg (by simp [leafMem])]
    rfl]
  exact ⟨by decide, by decide⟩

/-- Claim C7 (amended): within every level, at most one mapping entry exists
per distinct group name after the merge PROVIDED the destination satisfied
that invariant before the merge; the merge never introduces a duplicate name,
but it does not repair duplicate entries already present in the destination
(see the counterexample). -/
theorem c7_invariant_preserved (d s : List NavElement) (h : navInv d) :
    navInv (merge d s) := by
  unfold navInv at h ⊢
  exact navInv_merge d s h

theorem c7_invariant_preserved_witness :
    navInv [NavElement.leaf "features/a.md".data, NavElement.node ['G'] [] []] ∧
    navInv (merge [NavElement.leaf "features/a.md".data, NavElement.node ['G'] [] []]
      [NavElement.node ['g'] [NavElement.leaf ['x']] []]) := by
  have hinv : navInv [NavElement.leaf "features/a.md".data, NavElement.node ['G'] [] []] := by
    unfold navInv
    refine ⟨by decide, ?_⟩
    rw [subsInv_leaf, subsInv_node]
    exact ⟨⟨by decide, subsInv_nil⟩, entriesInv_nil, subsInv_nil⟩
  exact ⟨hinv, c7_invariant_preserved _ _ hinv⟩

/-- Claim C5: on single-key trees (the spec's Navigation Tree data model) the
suffix rewrite is a bijection on the leaves — the rewritten tree's leaf list
is exactly the positional image of the original leaf list, where every leaf
ending in `.feature` becomes one ending in `.md` with identical directory and
stem (and no longer ending in `.feature`), and every other leaf is unchanged. -/
theorem c5_rename_bijection (t : List NavElement) (ht : singleKey t = true) :
    (allLeaves (rename_features_in_nav t) = (allLeaves t).map renameLeaf) ∧
    (∀ p : List Char, endswith p featExt = true →
      endswith (renameLeaf p) mdExt = true ∧
      dirOf (renameLeaf p) = dirOf p ∧
      stemOfName (nameOf (renameLeaf p)) = stemOfName (nameOf p) ∧
      endswith (renameLeaf p) featExt = false) ∧
    (∀ p : List Char, endswith p featExt = false → renameLeaf p = p) := by
  refine ⟨allLeaves_rename t ht, ?_, ?_⟩
  · intro p hp
    have hs := with_suffix_md_spec hp
    rw [renameLeaf, if_pos hp]
    exact hs
  · intro p hp
    rw [renameLeaf, if_neg (by simp [hp])]

theorem c5_rename_bijection_witness :
    singleKey [NavElement.leaf "features/a.feature".data,
      NavElement.node "Group".data [NavElement.leaf "features/group/b.feature".data,
        NavElement.leaf "notes.md".data] []] = true ∧
    allLeaves (rename_features_in_nav [NavElement.leaf "features/a.feature".data,
      NavElement.node "Group".data [NavElement.leaf "features/group/b.feature".data,
        NavElement.leaf "notes.md".data] []]) =
      (allLeaves [NavElement.leaf "features/a.feature".data,
        NavElement.node "Group".data [NavElement.leaf "features/group/b.feature".data,
          NavElement.leaf "notes.md".data] []]).map renameLeaf ∧
    endswith (renameLeaf "features/group/b.feature".data) mdExt = true ∧
    renameLeaf "notes.md".data = "notes.md".data := by
  have hsk : singleKey [NavElement.leaf "features/a.feature".data,
      NavElement.node "Group".data [NavElement.leaf "features/group/b.feature".data,
        NavElement.leaf "notes.md".data] []] = true := by
    rw [singleKey_leaf, singleKey_node, singleKey_leaf, singleKey_leaf, singleKey_nil]
    rfl
  have h := c5_rename_bijection _ hsk
  exact ⟨hsk, h.1, (h.2.1 _ (by decide)).1, h.2.2 _ (by decide)⟩

theorem gfp_nil : get_feature_paths_in_nav [] = [] := by
  rw [get_feature_paths_in_nav]

theorem gfp_leaf (p : List Char) (rest : List NavElement) :
    get_feature_paths_in_nav (.leaf p :: rest) =
      (if endswith p featExt then [p] else []) ++ get_feature_paths_in_nav rest := by
  rw [get_feature_paths_in_nav]

theorem gfp_node (n : List Char) (sub : List NavElement)
    (others : List (List Char × List NavElement)) (rest : List NavElement) :
    get_feature_paths_in_nav (.node n sub others :: rest) =
      get_feature_paths_in_nav sub ++ get_feature_paths_in_nav rest := by
  rw [get_feature_paths_in_nav]

theorem entryLeaves_cons (k : List Char) (t : List NavElement)
    (os : List (List Char × List NavElement)) :
    entryLeaves ((k, t) :: os) = allLeaves t ++ entryLeaves os := by
  rw [entryLeaves]

/-- Claim C9: the feature-path search and the suffix rewrite descend only into
the FIRST key's sub-tree of each mapping entry (`next(iter(element.values()))`):
the general recursion equations never touch the trailing pairs, and on a
concrete tree whose `.feature` leaf sits under a second key the leaf is
neither reported nor rewritten, although it is a leaf of the tree. -/
theorem c9_first_key_only :
    (∀ (n : List Char) (sub : List NavElement)
        (others : List (List Char × List NavElement)) (rest : List NavElement),
      get_feature_paths_in_nav (.node n sub others :: rest) =
        get_feature_paths_in_nav sub ++ get_feature_paths_in_nav rest ∧
      rename_features_in_nav (.node n sub others :: rest) =
        .node n (rename_features_in_nav sub) others :: rename_features_in_nav rest) ∧
    get_feature_paths_in_nav
      [.node ['G'] [] [(['H'], [.leaf "x.feature".data])]] = [] ∧
    rename_features_in_nav
      [.node ['G'] [] [(['H'], [.leaf "x.feature".data])]] =
      [.node ['G'] [] [(['H'], [.leaf "x.feature".data])]] ∧
    endswith "x.feature".data featExt = true ∧
    allLeaves [.node ['G'] [] [(['H'], [.leaf "x.feature".data])]] = ["x.feature".data] := by
  refine ⟨fun n sub others rest => ⟨gfp_node n sub others rest, rename_node_cons n sub others rest⟩,
    ?_, ?_, by decide, ?_⟩
  · simp [gfp_node, gfp_nil]
  · rw [rename_node_cons, rename_nil]
  · simp [allLeaves_node, allLeaves_nil, entryLeaves_cons, allLeaves_leaf, entryLeaves_nil]

/-- Claim C10: the merge deduplicates leaves only by exact string equality on
the pre-rewrite paths.  If the heading's level already lists the `.md` form of
an on-disk feature file, merging the disk tree still appends the `.feature`
leaf (the strings differ), and the subsequent rewrite turns it into a second
identical `.md` leaf at that level.  For a file directly under the features
root the disk tree is exactly that single leaf. -/
theorem c10_duplicate_md_leaves (dest : List NavElement) (p : List Char)
    (hfeat : endswith p featExt = true)
    (hnew : leafMem dest p = false)
    (hmd : leafMem dest (with_suffix p mdExt) = true) :
    merge dest [.leaf p] = dest ++ [.leaf p] ∧
    countLeaf (rename_features_in_nav (merge dest [.leaf p])) (with_suffix p mdExt) =
      countLeaf (rename_features_in_nav dest) (with_suffix p mdExt) + 1 ∧
    1 ≤ countLeaf (rename_features_in_nav dest) (with_suffix p mdExt) ∧
    (parentParts p = [] → build_feature_tree [p] = [.leaf p]) := by
  have hspec := with_suffix_md_spec hfeat
  have hrn : renameLeaf p = with_suffix p mdExt := by
    rw [renameLeaf, if_pos hfeat]
  have hfix : renameLeaf (with_suffix p mdExt) = with_suffix p mdExt := by
    rw [renameLeaf, if_neg (by simp [hspec.2.2.2])]
  have h1 : merge dest [.leaf p] = dest ++ [.leaf p] := by
    rw [merge_leaf, merge_nil, if_neg (by simp [hnew])]
  refine ⟨h1, ?_, countLeaf_rename_of_mem hmd hfix, ?_⟩
  · rw [h1, rename_append, countLeaf_append, rename_leaf_cons, rename_nil, hrn, countLeaf,
      countLeaf, if_pos rfl]
  · intro hpp
    rw [build_feature_tree, List.foldl_cons, List.foldl_nil, hpp, insertPath,
      List.nil_append]

theorem c10_duplicate_md_leaves_witness :
    merge [NavElement.leaf "features/a.md".data] [.leaf "features/a.feature".data] =
      [NavElement.leaf "features/a.md".data] ++ [.leaf "features/a.feature".data] ∧
    countLeaf (rename_features_in_nav (merge [NavElement.leaf "features/a.md".data]
        [.leaf "features/a.feature".data])) (with_suffix "features/a.feature".data mdExt) =
      countLeaf (rename_features_in_nav [NavElement.leaf "features/a.md".data])
        (with_suffix "features/a.feature".data mdExt) + 1 ∧
    1 ≤ countLeaf (rename_features_in_nav [NavElement.leaf "features/a.md".data])
        (with_suffix "features/a.feature".data mdExt) ∧
    build_feature_tree ["features/a.feature".data] = [.leaf "features/a.feature".data] := by
  have h := c10_duplicate_md_leaves [NavElement.leaf "features/a.md".data]
    "features/a.feature".data (by decide) (by decide) (by decide)
  exact ⟨h.1, h.2.1, h.2.2.1, h.2.2.2 (by decide)⟩

/-- Claim C1 (evidence for the code bug): the conditional expression on
line 85 of `featureformatter.py` binds as
`(('#### Examples' + f': {name}') if name else '') + '\n'`, so a table with no
name produces ONLY a newline — the bare `#### Examples` heading required by
the spec never appears in the output — while a named table gets the full
heading; the markdown table itself (header row, separator row, one row per
example with inline-code cells) is emitted as specified in both cases. -/
theorem c1_examples_heading_dropped :
    format_examples ⟨"", ["h"], [["v"]]⟩ = "\n|h|\n|--|\n|`v`|\n\n" ∧
    containsSeq (format_examples ⟨"", ["h"], [["v"]]⟩).data "#### Examples".data = false ∧
    format_examples ⟨"Numbers", ["h"], [["v"]]⟩ =
      "#### Examples: Numbers\n|h|\n|--|\n|`v`|\n\n" ∧
    format_scenario (fun _ => "") ⟨"S", [], [], true, [⟨"", ["h"], [["v"]]⟩]⟩ =
      "### S\n\n\n|h|\n|--|\n|`v`|\n\n" := by
  refine ⟨by decide, by decide, by decide, by decide⟩

/-- Claim C3: `_strip_dots` maps the description lines one by one; a line
starting with `'. '` loses exactly its two leading characters and nothing
else (prepending them back restores the line), a lone `'.'` becomes the empty
line, and every other line — dots elsewhere included — is unchanged. -/
theorem c3_strip_dots_exact :
    (∀ lines : List (List Char), strip_dots lines = lines.map stripDotLine) ∧
    (∀ l : List Char, startswith l ['.', ' '] = true →
      ['.', ' '] ++ stripDotLine l = l) ∧
    stripDotLine ['.'] = [] ∧
    (∀ l : List Char, l ≠ ['.'] → startswith l ['.', ' '] = false →
      stripDotLine l = l) := by
  refine ⟨fun lines => rfl, ?_, rfl, ?_⟩
  · intro l hl
    obtain ⟨r, rfl⟩ := (startswith_iff _ _).1 hl
    rw [stripDotLine, if_pos]
    · rfl
    · rw [startswith_append]
      simp
  · intro l h1 h2
    rw [stripDotLine, if_neg]
    simp [h1, h2]

theorem c3_strip_dots_exact_witness :
    strip_dots ["Intro".data, ".".data, ". escaped".data] =
      ["Intro".data, ".".data, ". escaped".data].map stripDotLine ∧
    ['.', ' '] ++ stripDotLine ". escaped".data = ". escaped".data ∧
    stripDotLine ['.'] = [] ∧
    stripDotLine "a.b. c".data = "a.b. c".data := by
  have h := c3_strip_dots_exact
  exact ⟨h.1 _, h.2.1 _ (by decide), h.2.2.1, h.2.2.2 _ (by decide) (by decide)⟩

theorem renderQuotes_of_none {s : List Char} (h : splitQuote s = none) :
    renderQuotes s = s := by
  rw [renderQuotes.eq_def]
  split
  · rfl
  · rename_i pre r1 heq
    rw [h] at heq
    cases heq

theorem renderQuotes_unmatched {s pre r1 : List Char} (h1 : splitQuote s = some (pre, r1))
    (h2 : splitQuote r1 = none) : renderQuotes s = s := by
  rw [renderQuotes.eq_def]
  split
  · rfl
  · rename_i pre' r1' heq
    rw [h1] at heq
    injection heq with heq'
    injection heq' with ha hb
    subst ha
    subst hb
    split
    · rfl
    · rename_i mid r2 heq2
      rw [h2] at heq2
      cases heq2

theorem renderQuotes_pair {s pre r1 mid r2 : List Char}
    (h1 : splitQuote s = some (pre, r1)) (h2 : splitQuote r1 = some (mid, r2)) :
    renderQuotes s = pre ++ '"' :: '\x60' :: (mid ++ '\x60' :: '"' :: renderQuotes r2) := by
  rw [renderQuotes.eq_def]
  split
  · rename_i heq
    rw [h1] at heq
    cases heq
  · rename_i pre' r1' heq
    rw [h1] at heq
    injection heq with heq'
    injection heq' with ha hb
    subst ha
    subst hb
    split
    · rename_i heq2
      rw [h2] at heq2
      cases heq2
    · rename_i mid' r2' heq2
      rw [h2] at heq2
      injection heq2 with heq2'
      injection heq2' with hc hd
      subst hc
      subst hd
      rfl

theorem renderQuotes_count (s : List Char) :
    (renderQuotes s).count '"' = s.count '"' := by
  cases h1 : splitQuote s with
  | none => rw [renderQuotes_of_none h1]
  | some pr1 =>
    obtain ⟨pre, r1⟩ := pr1
    cases h2 : splitQuote r1 with
    | none => rw [renderQuotes_unmatched h1 h2]
    | some pr2 =>
      obtain ⟨mid, r2⟩ := pr2
      obtain ⟨hs1, hq1, hl1⟩ := splitQuote_eq_some h1
      obtain ⟨hs2, hq2, hl2⟩ := splitQuote_eq_some h2
      rw [renderQuotes_pair h1 h2, hs1, hs2]
      have hcpre : pre.count '"' = 0 := List.count_eq_zero.2 hq1
      have hcmid : mid.count '"' = 0 := List.count_eq_zero.2 hq2
      have hrec := renderQuotes_count r2
      simp [List.count_append, List.count_cons, hcpre, hcmid, hrec]
termination_by s.length
decreasing_by
  have key : ∀ (l a b : List Char), splitQuote l = some (a, b) → b.length < l.length := by
    intro l
    induction l with
    | nil => intro a b hab; cases hab
    | cons c cs ih =>
      intro a b hab
      rw [splitQuote] at hab
      by_cases hc : c = '"'
      · rw [if_pos hc] at hab
        injection hab with hpair
        injection hpair with ha hb
        subst hb
        simp
      · rw [if_neg hc] at hab
        cases hq : splitQuote cs with
        | none =>
          rw [hq] at hab
          cases hab
        | some pr =>
          rw [hq] at hab
          simp only [Option.map] at hab
          injection hab with hpair
          injection hpair with ha hb
          subst hb
          have := ih pr.1 pr.2 (by rw [hq])
          simp only [List.length_cons]
          omega
  have hb1 := key s pre r1 h1
  have hb2 := key r1 mid r2 h2
  omega

/-- Claim C4: `format_step`'s quote rewrite preserves the number of
double-quote marks of the step name exactly (so N quoted substrings keep
their N quote pairs), wraps each quoted substring's contents in backticks
while keeping the surrounding quotes in place, and leaves quote-free text
untouched; the step line is the bold keyword followed by the rewritten name. -/
theorem c4_quote_rendering :
    (∀ s : List Char, (renderQuotes s).count '"' = s.count '"') ∧
    (∀ pre mid rest : List Char, '"' ∉ pre → '"' ∉ mid →
      renderQuotes (pre ++ '"' :: (mid ++ '"' :: rest)) =
        pre ++ '"' :: '\x60' :: (mid ++ '\x60' :: '"' :: renderQuotes rest)) ∧
    (∀ s : List Char, '"' ∉ s → renderQuotes s = s) ∧
    (∀ (guess : String → String) (st : Step), st.text = "" →
      format_step guess st =
        "**" ++ st.keyword ++ "** " ++ String.mk (renderQuotes st.name.data) ++ "  \n") := by
  refine ⟨renderQuotes_count, ?_, ?_, ?_⟩
  · intro pre mid rest hp hm
    exact renderQuotes_pair (splitQuote_append hp) (splitQuote_append hm)
  · intro s hs
    exact renderQuotes_of_none (splitQuote_of_no_quote hs)
  · intro guess st h
    simp [format_step, h]

theorem c4_quote_rendering_witness :
    (renderQuotes "say \"hi\" to \"bob\"".data).count '"' =
      ("say \"hi\" to \"bob\"".data).count '"' ∧
    renderQuotes ("say ".data ++ '"' :: ("hi".data ++ '"' :: [])) =
      "say ".data ++ '"' :: '\x60' :: ("hi".data ++ '\x60' :: '"' :: renderQuotes []) ∧
    renderQuotes "no quotes here".data = "no quotes here".data ∧
    format_step (fun _ => "") ⟨"Given", "x", ""⟩ =
      "**" ++ "Given" ++ "** " ++ String.mk (renderQuotes "x".data) ++ "  \n" := by
  have h := c4_quote_rendering
  exact ⟨h.1 _, h.2.1 "say ".data "hi".data [] (by decide) (by decide),
    h.2.2.1 _ (by decide), h.2.2.2 (fun _ => "") ⟨"Given", "x", ""⟩ rfl⟩

/-- Claim C6: `on_page_read_source` defers to default handling exactly for
pages outside the handled set; for handled pages it returns the rendered text
stored under the path converted back to the `.feature` suffix, and when that
mapping has no such entry it raises `KeyError` (which terminates the build) —
it never returns empty content in that case, since the `KeyError` outcome is
distinct from every returned string. -/
theorem c6_on_page_read_source (handled : List (List Char))
    (rendered : List (List Char × String)) (u : List Char) :
    (handled.any (fun q => q = u) = false →
      on_page_read_source handled rendered u = .deferToDefault) ∧
    (handled.any (fun q => q = u) = true →
      (∀ t, lookupRendered rendered (with_suffix u featExt) = some t →
        on_page_read_source handled rendered u = .content t) ∧
      (lookupRendered rendered (with_suffix u featExt) = none →
        on_page_read_source handled rendered u = .keyError (with_suffix u featExt) ∧
        ∀ t, on_page_read_source handled rendered u ≠ .content t)) := by
  refine ⟨?_, ?_⟩
  · intro h
    simp [on_page_read_source, h]
  · intro h
    refine ⟨?_, ?_⟩
    · intro t ht
      simp [on_page_read_source, h, ht]
    · intro hn
      have hk : on_page_read_source handled rendered u = .keyError (with_suffix u featExt) := by
        simp [on_page_read_source, h, hn]
      refine ⟨hk, fun t hcontra => ?_⟩
      rw [hk] at hcontra
      cases hcontra

theorem c6_on_page_read_source_witness :
    on_page_read_source ["docs/a.md".data] [("docs/a.feature".data, "TEXT")]
      "other.md".data = .deferToDefault ∧
    on_page_read_source ["docs/a.md".data] [("docs/a.feature".data, "TEXT")]
      "docs/a.md".data = .content "TEXT" ∧
    on_page_read_source ["docs/a.md".data] [] "docs/a.md".data =
      .keyError (with_suffix "docs/a.md".data featExt) ∧
    (∀ t, on_page_read_source ["docs/a.md".data] [] "docs/a.md".data ≠ .content t) := by
  have hmiss := (c6_on_page_read_source ["docs/a.md".data] [] "docs/a.md".data).2
    (by decide) |>.2 rfl
  exact ⟨(c6_on_page_read_source _ _ _).1 (by decide),
    ((c6_on_page_read_source _ _ _).2 (by decide)).1 "TEXT" (by decide),
    hmiss.1, hmiss.2⟩

/-- Claim C8: `_run_behave` saves `sys.argv`, installs behave's argv for the
nested `run_module` call, and the `finally` clause restores the saved argv on
every exit path — normal completion, `SystemExit` with zero or non-zero code
(swallowed by the handler, warning logged when non-zero), and any other
exception (which keeps propagating) — so the argv after the call always
equals the argv before it. -/
theorem c8_argv_restored (outcome : RunOutcome) (s : ProcState) :
    (run_behave outcome s).1.argv = s.argv ∧
    (run_behave RunOutcome.raised s).2 = some PyExn.other ∧
    (run_behave RunOutcome.completed s).2 = none ∧
    (∀ c, c ≠ 0 → (run_behave (RunOutcome.systemExit c) s).1.warnings =
        s.warnings ++ [behaveWarning] ∧
      (run_behave (RunOutcome.systemExit c) s).2 = none) ∧
    (run_behave (RunOutcome.systemExit 0) s).1.warnings = s.warnings := by
  refine ⟨?_, rfl, rfl, ?_, rfl⟩
  · cases outcome with
    | completed => rfl
    | systemExit c =>
      by_cases hc : c ≠ 0 <;> simp [run_behave, runBehaveBody, hc]
    | raised => rfl
  · intro c hc
    exact ⟨by simp [run_behave, runBehaveBody, hc], by simp [run_behave, runBehaveBody, hc]⟩

theorem c8_argv_restored_witness :
    (run_behave (RunOutcome.systemExit 2) ⟨["mkdocs"], []⟩).1.argv = ["mkdocs"] ∧
    (run_behave (RunOutcome.systemExit 2) ⟨["mkdocs"], []⟩).1.warnings =
      [] ++ [behaveWarning] ∧
    (run_behave RunOutcome.raised ⟨["mkdocs"], []⟩).2 = some PyExn.other := by
  have h := c8_argv_restored (RunOutcome.systemExit 2) ⟨["mkdocs"], []⟩
  exact ⟨h.1, (h.2.2.2.1 2 (by decide)).1, h.2.1⟩
